import Mathlib

/-!
Verification of the acoustic-fingerprinting core of the Song-recognizer
repository (`song_recognizer.py`, duplicated in `app.py`).

The Python code is shallowly embedded as follows.

* A landmark `[time_idx, frequency]` of the constellation map becomes a
  `Landmark` record with an integer time bin and an exact rational
  frequency (the float arithmetic of the source is idealised as exact
  rational arithmetic).
* A Python `dict` becomes an association list (`List (κ × ν)`) together
  with the operations `insertA` (assignment `d[k] = v`: replaces in
  place, else appends, exactly like insertion-ordered Python dicts),
  `appendAt` (`d.setdefault(k, []).append(v)` pattern) and `bump`
  (the counting pattern `if k not in d: d[k] = 0; d[k] += 1`).
* Python `int(x)` on a nonnegative float is truncation toward zero,
  embedded as `pyInt` (truncating division of numerator by denominator);
  Python `%` is floored modulo, embedded as `pyMod`; Python `x << n`
  equals `x * 2 ^ n`; Python `|` on nonnegative ints is `Int.lor`.
* `song_id` values are `Option ℕ`: `none` for query-time hashing,
  `some i` for the index-build loop of the main script.
-/

/-- One constellation-map entry `[time_idx, frequency]`. -/
structure Landmark where
  time : ℤ
  freq : ℚ
deriving DecidableEq, Repr

/-- Song identifiers: `none` at query time, `some i` at index-build time. -/
abbrev SongId := Option ℕ

/-- Python `int(q)` for a rational `q`: truncation toward zero. -/
def pyInt (q : ℚ) : ℤ :=
  Int.tdiv q.num q.den

/-- Python's floored modulo `a % b` (sign follows the divisor). -/
def pyMod (a b : ℤ) : ℤ :=
  if 0 ≤ b then a % b else -((-a) % (-b))

/-- Python dict assignment `d[k] = v` on an insertion-ordered
association list: an existing key keeps its position and gets the new
value, a new key is appended at the end. -/
def insertA {κ ν : Type} [DecidableEq κ] : List (κ × ν) → κ → ν → List (κ × ν)
  | [], k, v => [(k, v)]
  | (k', v') :: rest, k, v =>
    if k = k' then (k, v) :: rest else (k', v') :: insertA rest k v

/-- Python dict lookup `d[k]` / `k in d` as an optional value. -/
def lookupA {κ ν : Type} [DecidableEq κ] : List (κ × ν) → κ → Option ν
  | [], _ => none
  | (k', v) :: rest, k => if k = k' then some v else lookupA rest k

/-- The Python pattern `if k not in d: d[k] = []` followed by
`d[k].append(v)`: appends `v` to the list stored at `k`, creating the
key at the end of the dict when absent. -/
def appendAt {κ ν : Type} [DecidableEq κ] : List (κ × List ν) → κ → ν → List (κ × List ν)
  | [], k, v => [(k, [v])]
  | (k', vs) :: rest, k, v =>
    if k = k' then (k', vs ++ [v]) :: rest else (k', vs) :: appendAt rest k v

/-- The Python pattern `if k not in d: d[k] = 0` followed by
`d[k] += 1`: increments the counter stored at `k`, creating it (with
count 1) at the end of the dict when absent. -/
def bump {κ : Type} [DecidableEq κ] : List (κ × ℕ) → κ → List (κ × ℕ)
  | [], k => [(k, 1)]
  | (k', c) :: rest, k =>
    if k = k' then (k', c + 1) :: rest else (k', c) :: bump rest k

/-- The packed fingerprint hash of `create_hashes`
(`song_recognizer.py:68-70`): with `upper_frequency = 23000` and
`frequency_bits = 10`,
`int(freq/23000 * 2**10) | (int(other_freq/23000 * 2**10) << 10) | (int(time_diff) << 20)`. -/
def hashVal (f g : ℚ) (d : ℤ) : ℤ :=
  Int.lor (Int.lor (pyInt (f / 23000 * 2 ^ 10)) (pyInt (g / 23000 * 2 ^ 10) * 2 ^ 10))
    (d * 2 ^ 20)

/-- Embedding of `create_hashes(constellation_map, song_id)`
(`song_recognizer.py:46-73`): for each anchor at position `idx` the
slice `constellation_map[idx : idx + 100]` is scanned; pairs with
`time_diff <= 1 or time_diff > 10` are skipped, all others assign
`hashes[hash_val] = (time, song_id)` into an insertion-ordered dict. -/
def create_hashes (cm : List Landmark) (song_id : SongId) : List (ℤ × (ℤ × SongId)) :=
  cm.enum.foldl
    (fun hs p =>
      ((cm.drop p.1).take 100).foldl
        (fun hs other =>
          let time_diff := other.time - p.2.time
          if time_diff ≤ 1 ∨ 10 < time_diff then hs
          else insertA hs (hashVal p.2.freq other.freq time_diff) (p.2.time, song_id))
        hs)
    []

/-- First phase of `score_songs` (`song_recognizer.py:85-92`): group the
database hits of the query hashes into per-song lists of
`(hash, sample_time, ref_time)` triples. -/
def songMatches (hashes : List (ℤ × (ℤ × SongId))) (database : List (ℤ × List (ℤ × SongId))) :
    List (SongId × List (ℤ × ℤ × ℤ)) :=
  hashes.foldl
    (fun sm p =>
      match lookupA database p.1 with
      | none => sm
      | some match_list =>
          match_list.foldl (fun sm q => appendAt sm q.2 (p.1, p.2.1, q.1)) sm)
    []

/-- Offset histogram of one song's match list
(`song_recognizer.py:96-101`): counts `delta = ref_time - sample_time`. -/
def offsetHist (ms : List (ℤ × ℤ × ℤ)) : List (ℤ × ℕ) :=
  ms.foldl (fun os t => bump os (t.2.2 - t.2.1)) []

/-- The maximum-score scan of `score_songs` (`song_recognizer.py:103-106`):
starts from `(0, 0)` and replaces the running best only on strictly
larger score. -/
def maxPair (os : List (ℤ × ℕ)) : ℤ × ℕ :=
  os.foldl (fun best p => if p.2 > best.2 then p else best) (0, 0)

/-- One step of the stable descending-by-score sort: inserts `x` after
every already-placed entry whose score is `≥ x`'s score and before the
first entry with a strictly smaller score. -/
def insertDesc (x : SongId × (ℤ × ℕ)) :
    List (SongId × (ℤ × ℕ)) → List (SongId × (ℤ × ℕ))
  | [] => [x]
  | y :: ys => if y.2.2 < x.2.2 then x :: y :: ys else y :: insertDesc x ys

/-- Python's `sorted(..., key=lambda x: x[1][1], reverse=True)`
(`song_recognizer.py:111`): a stable sort, descending by score, equal
scores keeping their original relative order.  Embedded as a stable
insertion sort, which computes exactly that. -/
def pySortDesc (l : List (SongId × (ℤ × ℕ))) : List (SongId × (ℤ × ℕ)) :=
  l.foldl (fun acc x => insertDesc x acc) []

/-- Embedding of `score_songs(hashes)` (`song_recognizer.py:75-113`),
with the module-global `database` passed explicitly.  Returns the list
of `(song_index, (best_offset, score))`, sorted by score descending with
Python's stable sort. -/
def score_songs (hashes : List (ℤ × (ℤ × SongId))) (database : List (ℤ × List (ℤ × SongId))) :
    List (SongId × (ℤ × ℕ)) :=
  let song_scores := (songMatches hashes database).map
    (fun p => (p.1, maxPair (offsetHist p.2)))
  pySortDesc song_scores

/-- The index-build loop of the main script
(`song_recognizer.py:158-161`): every `(hash, (time, song_id))` item of
one recording's hash dict is appended to the database bucket of that
hash (creating an empty bucket first when absent). -/
def addRecording (database : List (ℤ × List (ℤ × SongId))) (hs : List (ℤ × (ℤ × SongId))) :
    List (ℤ × List (ℤ × SongId)) :=
  hs.foldl (fun db p => appendAt db p.1 p.2) database

/-- The whole index-build pass of the main script
(`song_recognizer.py:147-161`): recordings are enumerated in order, each
is fingerprinted with its position as `song_id`, and all hash items are
appended into the shared database. -/
def buildDB (corpus : List (List Landmark)) : List (ℤ × List (ℤ × SongId)) :=
  corpus.enum.foldl (fun db p => addRecording db (create_hashes p.2 (some p.1))) []

/-- The bucket of reference occurrences stored for hash `h`. -/
def bucket (database : List (ℤ × List (ℤ × SongId))) (h : ℤ) : List (ℤ × SongId) :=
  (lookupA database h).getD []

/-- All (anchor, target) pairs examined by `create_hashes`, with the
anchor's list position: for the anchor at position `idx` the examined
targets are exactly the elements of `constellation_map[idx : idx+100]`. -/
def candidatePairs (cm : List Landmark) : List ((ℕ × Landmark) × Landmark) :=
  cm.enum.flatMap (fun p => ((cm.drop p.1).take 100).map (fun other => (p, other)))

/-- The time-delta filter of `create_hashes` (`song_recognizer.py:65`):
a candidate pair is kept unless `time_diff <= 1 or time_diff > 10`. -/
def keepPair (x : (ℕ × Landmark) × Landmark) : Bool :=
  !(x.2.time - x.1.2.time ≤ 1 ∨ 10 < x.2.time - x.1.2.time : Prop)

/-- The dict item `(hash_val, (time, song_id))` produced for one kept pair. -/
def mkItem (song_id : SongId) (x : (ℕ × Landmark) × Landmark) : ℤ × (ℤ × SongId) :=
  (hashVal x.1.2.freq x.2.freq (x.2.time - x.1.2.time), (x.1.2.time, song_id))

/-- The sequence of dict assignments performed by `create_hashes`, in
execution order. -/
def hashItems (cm : List Landmark) (song_id : SongId) : List (ℤ × (ℤ × SongId)) :=
  ((candidatePairs cm).filter keepPair).map (mkItem song_id)

/-- The candidate pairs demanded by the claim C8 reading of the spec:
for the anchor at position `idx` the targets would be
`constellation_map[idx+1 : idx+101]`, the next 100 landmarks. -/
def claimCandidatePairs (cm : List Landmark) : List ((ℕ × Landmark) × Landmark) :=
  cm.enum.flatMap (fun p => ((cm.drop (p.1 + 1)).take 100).map (fun other => (p, other)))

/-- `create_hashes` as the claim C8 reading would have it: same filter
and same dict assignments, but over the `[idx+1 : idx+101]` windows. -/
def claimCreateHashes (cm : List Landmark) (song_id : SongId) : List (ℤ × (ℤ × SongId)) :=
  (((claimCandidatePairs cm).filter keepPair).map (mkItem song_id)).foldl
    (fun hs p => insertA hs p.1 p.2) []

/-- The effective pair list of `create_hashes`: the `[idx : idx+100]`
slice minus the anchor itself, i.e. the next 99 landmarks. -/
def effectiveCandidatePairs (cm : List Landmark) : List ((ℕ × Landmark) × Landmark) :=
  cm.enum.flatMap (fun p => ((cm.drop (p.1 + 1)).take 99).map (fun other => (p, other)))

/-- Error outcomes of `create_constellation_map` on degenerate sample
rates.  `invalidInput` is the designed rejection named by the spec's
error taxonomy; the code never produces it.  `zeroDivision` is the
Python `ZeroDivisionError` raised by `audio.size % sample_window_size`
when the window size is zero; `negativePad` is the `ValueError` raised
by `np.pad` on a negative pad width when the window size is negative. -/
inductive ExtractError
  | invalidInput
  | zeroDivision
  | negativePad
deriving DecidableEq, Repr

/-- Outcome of the extractor's framing phase: either the pair
`(window size, number of STFT windows)` or an error. -/
inductive ExtractResult
  | ok : ℤ → ℕ → ExtractResult
  | error : ExtractError → ExtractResult
deriving DecidableEq, Repr

/-- The window size computed by `create_constellation_map`
(`song_recognizer.py:20-22`): `int(0.5 * sample_rate)` forced even by
adding its parity. -/
def sample_window_size (sample_rate : ℤ) : ℤ :=
  let w0 := pyInt ((1 / 2 : ℚ) * (sample_rate : ℚ))
  w0 + pyMod w0 2

/-- The framing of `create_constellation_map`
(`song_recognizer.py:20-32`): window-size computation, padding
(`padding = window - len % window`, raising on window 0 or negative
padding like the Python), then the window count of
`scipy.signal.stft(..., nperseg=w, nfft=w, return_onesided=True)` with
scipy's documented defaults `noverlap = nperseg // 2`,
`boundary='zeros'` (extension by `nperseg // 2` zeros on both sides) and
`padded=True`.  Returns `(window size, number of STFT windows)`. -/
def constellationFraming (audioLen : ℕ) (sample_rate : ℤ) : ExtractResult :=
  let w := sample_window_size sample_rate
  if w = 0 then .error .zeroDivision
  else
    let padding := w - pyMod (audioLen : ℤ) w
    if padding < 0 then .error .negativePad
    else
      let paddedLen := (audioLen : ℤ) + padding
      let noverlap := Int.fdiv w 2
      let step := w - noverlap
      let extLen := paddedLen + 2 * Int.fdiv w 2
      let nadd := pyMod (pyMod (-(extLen - w)) step) w
      let totalLen := extLen + nadd
      .ok w (Int.fdiv (totalLen - noverlap) step).toNat

/-- The per-window landmark selection of `create_constellation_map`
(`song_recognizer.py:35-42`), with the outputs of
`scipy.signal.find_peaks` and `np.argpartition` abstracted as
parameters: `detected` is the list of detected peak frequencies of the
window, `order` the index permutation returned by `argpartition`; the
code keeps the last `n_peaks = min(15, len(peaks))` indices of `order`
and emits one landmark per kept peak. -/
def windowLandmarks (detected : List ℚ) (order : List ℕ) (t : ℤ) : List Landmark :=
  let n_peaks := min 15 detected.length
  (order.drop (order.length - n_peaks)).filterMap
    (fun i => (detected[i]?).map (fun f => Landmark.mk t f))

/-- The whole constellation-map loop over the STFT windows, with the
spectral peak data of each window abstracted as functions of the window
index. -/
def constellationLoop (numWin : ℕ) (detected : ℕ → List ℚ) (order : ℕ → List ℕ) :
    List Landmark :=
  (List.range numWin).flatMap (fun t => windowLandmarks (detected t) (order t) (t : ℤ))

namespace App

/-- Embedding of `create_hashes` of `app.py:35-51` (textually the same
code as `song_recognizer.py`). -/
def create_hashes (cm : List Landmark) (song_id : SongId) : List (ℤ × (ℤ × SongId)) :=
  cm.enum.foldl
    (fun hs p =>
      ((cm.drop p.1).take 100).foldl
        (fun hs other =>
          let time_diff := other.time - p.2.time
          if time_diff ≤ 1 ∨ 10 < time_diff then hs
          else insertA hs (hashVal p.2.freq other.freq time_diff) (p.2.time, song_id))
        hs)
    []

/-- Embedding of `score_songs(hashes, database)` of `app.py:53-80`
(same code as `song_recognizer.py`, with `database` a parameter). -/
def score_songs (hashes : List (ℤ × (ℤ × SongId))) (database : List (ℤ × List (ℤ × SongId))) :
    List (SongId × (ℤ × ℕ)) :=
  let song_matches :=
    hashes.foldl
      (fun sm p =>
        match lookupA database p.1 with
        | none => sm
        | some match_list =>
            match_list.foldl (fun sm q => appendAt sm q.2 (p.1, p.2.1, q.1)) sm)
      []
  let song_scores := song_matches.map
    (fun p => (p.1, (p.2.foldl (fun os t => bump os (t.2.2 - t.2.1)) []).foldl
      (fun best q => if q.2 > best.2 then q else best) (0, 0)))
  pySortDesc song_scores

/-- Embedding of the framing of `create_constellation_map` of
`app.py:10-21` (same code as `song_recognizer.py`). -/
def constellationFraming (audioLen : ℕ) (sample_rate : ℤ) : ExtractResult :=
  let w := sample_window_size sample_rate
  if w = 0 then .error .zeroDivision
  else
    let padding := w - pyMod (audioLen : ℤ) w
    if padding < 0 then .error .negativePad
    else
      let paddedLen := (audioLen : ℤ) + padding
      let noverlap := Int.fdiv w 2
      let step := w - noverlap
      let extLen := paddedLen + 2 * Int.fdiv w 2
      let nadd := pyMod (pyMod (-(extLen - w)) step) w
      let totalLen := extLen + nadd
      .ok w (Int.fdiv (totalLen - noverlap) step).toNat

/-- Embedding of the per-window landmark selection of `app.py:24-31`
(same code as `song_recognizer.py`). -/
def windowLandmarks (detected : List ℚ) (order : List ℕ) (t : ℤ) : List Landmark :=
  let n_peaks := min 15 detected.length
  (order.drop (order.length - n_peaks)).filterMap
    (fun i => (detected[i]?).map (fun f => Landmark.mk t f))

end App

/-- The histogram fold of `score_songs` on a plain list of offsets. -/
def histo (ds : List ℤ) : List (ℤ × ℕ) :=
  ds.foldl (fun os d => bump os d) []

/-- The offsets of a list in first-occurrence order (the key order of a
Python dict filled by counting). -/
def dedupFirst : List ℤ → List ℤ
  | [] => []
  | d :: ds => d :: (dedupFirst ds).filter (fun x => decide (x ≠ d))

/-- The greatest count appearing in an offset histogram (0 when empty). -/
def histMax (os : List (ℤ × ℕ)) : ℕ :=
  os.foldr (fun p m => max p.2 m) 0

/-- The match list collected by `score_songs` for one song. -/
def matchesFor (hashes : List (ℤ × (ℤ × SongId))) (database : List (ℤ × List (ℤ × SongId)))
    (song : SongId) : List (ℤ × ℤ × ℤ) :=
  (lookupA (songMatches hashes database) song).getD []

/-- The offsets `ref_time - sample_time` of a match list, in order. -/
def deltasOf (ms : List (ℤ × ℤ × ℤ)) : List ℤ :=
  ms.map (fun t => t.2.2 - t.2.1)

/-- A 101-landmark constellation map separating the code's anchor
window `[idx : idx+100]` from the claimed window `[idx+1 : idx+101]`:
the anchor at position 0 has time 0, positions 1-99 have time 1, and
position 100 has time 2.  Only the pair (position 0, position 100) has
a time delta in `[2, 10]`, and only the claimed window reaches it. -/
def cm8 : List Landmark :=
  ⟨0, 0⟩ :: (List.replicate 99 ⟨1, 0⟩ ++ [⟨2, 100⟩])

theorem mem_insertA {κ ν : Type} [DecidableEq κ] (m : List (κ × ν)) (k : κ) (v : ν) :
    ∀ x : κ × ν, x ∈ insertA m k v → x ∈ m ∨ x = (k, v) := by
  induction m with
  | nil => intro x hx; simpa [insertA] using hx
  | cons hd tl ih =>
    intro x hx
    obtain ⟨k', v'⟩ := hd
    by_cases h : k = k'
    · simp only [insertA, if_pos h, List.mem_cons] at hx
      rcases hx with hx | hx
      · exact Or.inr hx
      · exact Or.inl (List.mem_cons_of_mem _ hx)
    · simp only [insertA, if_neg h, List.mem_cons] at hx
      rcases hx with hx | hx
      · exact Or.inl (by simp [hx])
      · rcases ih x hx with h' | h'
        · exact Or.inl (List.mem_cons_of_mem _ h')
        · exact Or.inr h'

theorem mem_foldl_insertA {κ ν : Type} [DecidableEq κ] (L : List (κ × ν)) :
    ∀ (acc : List (κ × ν)) (x : κ × ν),
      x ∈ L.foldl (fun m p => insertA m p.1 p.2) acc → x ∈ acc ∨ x ∈ L := by
  induction L with
  | nil => exact fun _ _ hx => Or.inl hx
  | cons hd tl ih =>
    intro acc x hx
    rcases ih _ _ hx with h' | h'
    · rcases mem_insertA _ _ _ _ h' with h'' | h''
      · exact Or.inl h''
      · exact Or.inr (by simp [h''])
    · exact Or.inr (List.mem_cons_of_mem _ h')

theorem foldl_filterB {α β : Type} (p : α → Bool) (f : β → α → β) (l : List α) (acc : β) :
    (l.filter p).foldl f acc = l.foldl (fun a x => if p x then f a x else a) acc := by
  induction l generalizing acc with
  | nil => rfl
  | cons hd tl ih => by_cases h : p hd <;> simp [List.filter_cons, h, ih]

theorem foldl_flatMapB {α β γ : Type} (g : α → List β) (f : γ → β → γ) (l : List α) (acc : γ) :
    (l.flatMap g).foldl f acc = l.foldl (fun a x => (g x).foldl f a) acc := by
  induction l generalizing acc with
  | nil => rfl
  | cons hd tl ih => simp [List.flatMap_cons, List.foldl_append, ih]

theorem create_hashes_eq_flat (cm : List Landmark) (sid : SongId) :
    create_hashes cm sid = (hashItems cm sid).foldl (fun hs p => insertA hs p.1 p.2) [] := by
  unfold create_hashes hashItems candidatePairs
  rw [List.foldl_map, foldl_filterB, foldl_flatMapB]
  apply List.foldl_ext
  intro acc p _
  rw [List.foldl_map]
  apply List.foldl_ext
  intro acc' other _
  dsimp only
  by_cases hd : (other.time - p.2.time ≤ 1 ∨ 10 < other.time - p.2.time)
  · rw [if_pos hd]
    have hk : keepPair (p, other) = false := by simp only [keepPair]; simp; omega
    rw [hk]
    simp
  · rw [if_neg hd]
    have hk : keepPair (p, other) = true := by simp only [keepPair]; simp; omega
    rw [hk]
    simp [mkItem]

theorem mem_hashItems {cm : List Landmark} {sid : SongId} {x : ℤ × (ℤ × SongId)} :
    x ∈ hashItems cm sid ↔
      ∃ pr ∈ candidatePairs cm, keepPair pr = true ∧ x = mkItem sid pr := by
  simp only [hashItems, List.mem_map, List.mem_filter]
  constructor
  · rintro ⟨pr, ⟨h1, h2⟩, h3⟩
    exact ⟨pr, h1, h2, h3.symm⟩
  · rintro ⟨pr, h1, h2, h3⟩
    exact ⟨pr, ⟨h1, h2⟩, h3.symm⟩

theorem mem_candidatePairs {cm : List Landmark} {pr : (ℕ × Landmark) × Landmark}
    (h : pr ∈ candidatePairs cm) :
    ∃ i j : ℕ, pr.1.1 = i ∧ cm[i]? = some pr.1.2 ∧ cm[j]? = some pr.2 ∧
      i ≤ j ∧ j < i + 100 := by
  simp only [candidatePairs, List.mem_flatMap, List.mem_map] at h
  obtain ⟨p, hp, other, hother, heq⟩ := h
  have hp' := List.mem_enum_iff_getElem?.mp hp
  obtain ⟨jr, hjr⟩ := List.mem_iff_getElem?.mp hother
  rw [List.getElem?_take] at hjr
  by_cases hlt : jr < 100
  · rw [if_pos hlt, List.getElem?_drop] at hjr
    refine ⟨p.1, p.1 + jr, ?_, ?_, ?_, ?_, ?_⟩
    · rw [← heq]
    · rw [← heq]; exact hp'
    · rw [← heq]; exact hjr
    · omega
    · omega
  · rw [if_neg hlt] at hjr
    exact absurd hjr (by simp)

theorem nat_lor_mul_pow (k a b : ℕ) (ha : a < 2 ^ k) : a ||| (b * 2 ^ k) = a + b * 2 ^ k := by
  apply Nat.eq_of_testBit_eq
  intro i
  have hshift : (b * 2 ^ k).testBit i = (decide (i ≥ k) && b.testBit (i - k)) := by
    rw [← Nat.shiftLeft_eq, Nat.testBit_shiftLeft]
  rw [Nat.testBit_lor, hshift]
  by_cases hik : i < k
  · have hmod : (a + b * 2 ^ k) % 2 ^ k = a := by
      rw [mul_comm b, Nat.add_mul_mod_self_left, Nat.mod_eq_of_lt ha]
    have ht := Nat.testBit_mod_two_pow (a + b * 2 ^ k) k i
    rw [hmod, decide_eq_true hik, Bool.true_and] at ht
    rw [← ht, decide_eq_false (by omega : ¬i ≥ k), Bool.false_and, Bool.or_false]
  · have h1 : a.testBit i = false :=
      Nat.testBit_eq_false_of_lt
        (lt_of_lt_of_le ha (Nat.pow_le_pow_right (by norm_num) (by omega)))
    have ht := @Nat.testBit_shiftRight k (i - k) (a + b * 2 ^ k)
    rw [Nat.shiftRight_eq_div_pow, mul_comm b,
      Nat.add_mul_div_left _ _ (Nat.two_pow_pos k),
      Nat.div_eq_of_lt ha, Nat.zero_add] at ht
    have hki : k + (i - k) = i := by omega
    rw [hki] at ht
    rw [h1, ht, Bool.false_or, decide_eq_true (by omega : i ≥ k), Bool.true_and,
      mul_comm (2 ^ k) b]

theorem int_pack (A B D : ℤ) (hA0 : 0 ≤ A) (hA : A < 2 ^ 10) (hB0 : 0 ≤ B) (hB : B < 2 ^ 10)
    (hD0 : 0 ≤ D) (hD : D ≤ 10) :
    Int.lor (Int.lor A (B * 2 ^ 10)) (D * 2 ^ 20) = A + B * 2 ^ 10 + D * 2 ^ 20 := by
  obtain ⟨a, rfl⟩ : ∃ a : ℕ, A = (a : ℤ) := ⟨A.toNat, (Int.toNat_of_nonneg hA0).symm⟩
  obtain ⟨b, rfl⟩ : ∃ b : ℕ, B = (b : ℤ) := ⟨B.toNat, (Int.toNat_of_nonneg hB0).symm⟩
  obtain ⟨d, rfl⟩ : ∃ d : ℕ, D = (d : ℤ) := ⟨D.toNat, (Int.toNat_of_nonneg hD0).symm⟩
  have ha : a < 2 ^ 10 := by exact_mod_cast hA
  have hb : b < 2 ^ 10 := by exact_mod_cast hB
  have hcast1 : (b : ℤ) * 2 ^ 10 = ((b * 2 ^ 10 : ℕ) : ℤ) := by push_cast; ring
  have hcast2 : (d : ℤ) * 2 ^ 20 = ((d * 2 ^ 20 : ℕ) : ℤ) := by push_cast; ring
  have hlor1 : Int.lor (a : ℤ) ((b * 2 ^ 10 : ℕ) : ℤ) = ((a ||| b * 2 ^ 10 : ℕ) : ℤ) := rfl
  have hlow : a + b * 2 ^ 10 < 2 ^ 20 := by
    have h1 : a < 1024 := by norm_num at ha; exact ha
    have h2 : b < 1024 := by norm_num at hb; exact hb
    norm_num
    omega
  have hlor2 :
      Int.lor ((a + b * 2 ^ 10 : ℕ) : ℤ) ((d * 2 ^ 20 : ℕ) : ℤ) =
        ((a + b * 2 ^ 10 ||| d * 2 ^ 20 : ℕ) : ℤ) := rfl
  rw [hcast1, hlor1, nat_lor_mul_pow 10 a b ha, hcast2, hlor2,
    nat_lor_mul_pow 20 (a + b * 2 ^ 10) d hlow]
  push_cast
  ring

theorem pyInt_nonneg (q : ℚ) (h : 0 ≤ q) : 0 ≤ pyInt q :=
  Int.tdiv_nonneg (Rat.num_nonneg.mpr h) (by positivity)

theorem pyInt_lt (q : ℚ) (c : ℕ) (h0 : 0 ≤ q) (h : q < (c : ℚ)) : pyInt q < (c : ℤ) := by
  unfold pyInt
  have hden : (0 : ℤ) < (q.den : ℤ) := by exact_mod_cast q.den_pos
  rw [Int.tdiv_eq_ediv (Rat.num_nonneg.mpr h0) (le_of_lt hden),
    Int.ediv_lt_iff_lt_mul hden]
  have h2 : (q.num : ℚ) / (q.den : ℚ) < (c : ℚ) := by
    rw [Rat.num_div_den q]
    exact h
  have hnum : (q.num : ℚ) < (c : ℚ) * (q.den : ℚ) :=
    (div_lt_iff (by positivity)).mp h2
  exact_mod_cast hnum

theorem scaled_freq_nonneg (f : ℚ) (h : 0 ≤ f) : 0 ≤ f / 23000 * 2 ^ 10 := by positivity

theorem scaled_freq_lt (f : ℚ) (h0 : 0 ≤ f) (h : f < 23000) :
    f / 23000 * 2 ^ 10 < ((1024 : ℕ) : ℚ) := by
  have h1 : f / 23000 < 1 := (div_lt_one (by norm_num)).mpr h
  calc f / 23000 * 2 ^ 10 < 1 * 2 ^ 10 := by
        exact mul_lt_mul_of_pos_right h1 (by norm_num)
    _ = ((1024 : ℕ) : ℚ) := by norm_num

theorem hashVal_eq_pack (f g : ℚ) (d : ℤ) (hf0 : 0 ≤ f) (hf : f < 23000)
    (hg0 : 0 ≤ g) (hg : g < 23000) (hd2 : 2 ≤ d) (hd : d ≤ 10) :
    hashVal f g d =
      pyInt (f / 23000 * 2 ^ 10) + pyInt (g / 23000 * 2 ^ 10) * 2 ^ 10 + d * 2 ^ 20 := by
  unfold hashVal
  apply int_pack
  · exact pyInt_nonneg _ (scaled_freq_nonneg f hf0)
  · have := pyInt_lt _ 1024 (scaled_freq_nonneg f hf0) (scaled_freq_lt f hf0 hf)
    norm_num at this ⊢
    exact this
  · exact pyInt_nonneg _ (scaled_freq_nonneg g hg0)
  · have := pyInt_lt _ 1024 (scaled_freq_nonneg g hg0) (scaled_freq_lt g hg0 hg)
    norm_num at this ⊢
    exact this
  · omega
  · exact hd

theorem keepPair_iff {pr : (ℕ × Landmark) × Landmark} :
    keepPair pr = true ↔ 2 ≤ pr.2.time - pr.1.2.time ∧ pr.2.time - pr.1.2.time ≤ 10 := by
  unfold keepPair
  constructor
  · intro h
    simp at h
    omega
  · intro h
    simp
    omega

theorem mem_create_hashes_provenance {cm : List Landmark} {sid : SongId}
    {h t : ℤ} {s : SongId} (hmem : (h, (t, s)) ∈ create_hashes cm sid) :
    ∃ (i j : ℕ) (a b : Landmark), cm[i]? = some a ∧ cm[j]? = some b ∧
      i ≤ j ∧ j < i + 100 ∧ 2 ≤ b.time - a.time ∧ b.time - a.time ≤ 10 ∧
      h = hashVal a.freq b.freq (b.time - a.time) ∧ t = a.time ∧ s = sid := by
  rw [create_hashes_eq_flat] at hmem
  rcases mem_foldl_insertA _ _ _ hmem with hmem | hmem
  · simp at hmem
  · obtain ⟨pr, hpr, hkeep, heq⟩ := mem_hashItems.mp hmem
    obtain ⟨i, j, hpi, hia, hjb, hij, hj100⟩ := mem_candidatePairs hpr
    obtain ⟨hδ1, hδ2⟩ := keepPair_iff.mp hkeep
    refine ⟨i, j, pr.1.2, pr.2, hia, hjb, hij, hj100, hδ1, hδ2, ?_, ?_, ?_⟩ <;>
      · simp [mkItem] at heq
        tauto

set_option maxRecDepth 4000 in
unseal Rat.mul Rat.inv Rat.add Rat.sub in
/-- Claim C3, counterexample: the code never clamps, masks or rejects
out-of-range scaled frequencies.  For the constellation map
`[(0, 0), (2, 23552000)]` (time bins ≥ 0, frequencies ≥ 0) the single
produced hash is `2^30 + 2*2^20 = 1075838976 ≥ 2^30`: the scaled target
frequency `int(23552000/23000*1024) = 2^20` silently overflows out of
its 10-bit field. -/
theorem c3_counterexample :
    (1075838976, ((0 : ℤ), (none : SongId))) ∈ create_hashes [⟨0, 0⟩, ⟨2, 23552000⟩] none ∧
      ¬((1075838976 : ℤ) < 2 ^ 30) :=
  ⟨by decide, by decide⟩

/-- Claim C3 (amended): when every landmark frequency lies in
`[0, 23000)` — so that every scaled frequency lies in `[0, 2^10)` —
every hash produced by `create_hashes` is a nonnegative integer `< 2^30`
whose three packed 10-bit fields decode back exactly to the data of the
landmark pair that generated the hash: the low 10 bits are the scaled
anchor frequency `int(anchor.freq/23000 * 2^10)`, the next 10 bits the
scaled target frequency, and bits 20-29 the pair's time delta, which
the filter keeps in `[2, 10]`.  Frequencies at or above 23000 are
neither clamped nor masked nor rejected: they overflow into adjacent
fields, as the counterexample shows. -/
theorem c3_hash_range (cm : List Landmark) (sid : SongId)
    (hfreq : ∀ l ∈ cm, 0 ≤ l.freq ∧ l.freq < 23000) :
    ∀ h t s, (h, (t, s)) ∈ create_hashes cm sid →
      0 ≤ h ∧ h < 2 ^ 30 ∧
        ∃ (i j : ℕ) (a b : Landmark), cm[i]? = some a ∧ cm[j]? = some b ∧
          i ≤ j ∧ j < i + 100 ∧ t = a.time ∧
          0 ≤ pyInt (a.freq / 23000 * 2 ^ 10) ∧ pyInt (a.freq / 23000 * 2 ^ 10) < 2 ^ 10 ∧
          0 ≤ pyInt (b.freq / 23000 * 2 ^ 10) ∧ pyInt (b.freq / 23000 * 2 ^ 10) < 2 ^ 10 ∧
          2 ≤ b.time - a.time ∧ b.time - a.time ≤ 10 ∧
          h = pyInt (a.freq / 23000 * 2 ^ 10) + pyInt (b.freq / 23000 * 2 ^ 10) * 2 ^ 10 +
            (b.time - a.time) * 2 ^ 20 ∧
          h % 2 ^ 10 = pyInt (a.freq / 23000 * 2 ^ 10) ∧
          (h / 2 ^ 10) % 2 ^ 10 = pyInt (b.freq / 23000 * 2 ^ 10) ∧
          h / 2 ^ 20 = b.time - a.time := by
  intro h t s hmem
  obtain ⟨i, j, la, lb, hia, hjb, hij, hj100, hd1, hd2, hh, ht, _⟩ :=
    mem_create_hashes_provenance hmem
  have hla := hfreq la (List.getElem?_mem hia)
  have hlb := hfreq lb (List.getElem?_mem hjb)
  have hpack := hashVal_eq_pack la.freq lb.freq (lb.time - la.time)
    hla.1 hla.2 hlb.1 hlb.2 hd1 hd2
  have hA0 : 0 ≤ pyInt (la.freq / 23000 * 2 ^ 10) :=
    pyInt_nonneg _ (scaled_freq_nonneg _ hla.1)
  have hA1 : pyInt (la.freq / 23000 * 2 ^ 10) < 2 ^ 10 := by
    have := pyInt_lt _ 1024 (scaled_freq_nonneg _ hla.1) (scaled_freq_lt _ hla.1 hla.2)
    norm_num at this ⊢
    exact this
  have hB0 : 0 ≤ pyInt (lb.freq / 23000 * 2 ^ 10) :=
    pyInt_nonneg _ (scaled_freq_nonneg _ hlb.1)
  have hB1 : pyInt (lb.freq / 23000 * 2 ^ 10) < 2 ^ 10 := by
    have := pyInt_lt _ 1024 (scaled_freq_nonneg _ hlb.1) (scaled_freq_lt _ hlb.1 hlb.2)
    norm_num at this ⊢
    exact this
  set A := pyInt (la.freq / 23000 * 2 ^ 10) with hAdef
  set B := pyInt (lb.freq / 23000 * 2 ^ 10) with hBdef
  have hform : h = A + B * 2 ^ 10 + (lb.time - la.time) * 2 ^ 20 := by
    rw [hh, hpack]
  have e10 : ((2 : ℤ) ^ 10) = 1024 := by norm_num
  have e20 : ((2 : ℤ) ^ 20) = 1048576 := by norm_num
  have e30 : ((2 : ℤ) ^ 30) = 1073741824 := by norm_num
  rw [e10] at hA1 hB1
  refine ⟨?_, ?_, i, j, la, lb, hia, hjb, hij, hj100, ht,
    hA0, hA1.trans_eq e10.symm, hB0, hB1.trans_eq e10.symm, hd1, hd2, hform, ?_, ?_, ?_⟩ <;>
  · rw [hform, e10, e20]
    first
      | (rw [e30]; omega)
      | omega

/-- Claim C7: every entry of the mapping returned by `create_hashes`
arises from an (anchor, target) pair of landmarks, within the bounded
forward window, whose time delta lies in `[2, 10]`; pairs with
`time_delta <= 1` or `time_delta > 10` never contribute. -/
theorem c7_time_delta_filter (cm : List Landmark) (sid : SongId) :
    ∀ h t s, (h, (t, s)) ∈ create_hashes cm sid →
      ∃ (i j : ℕ) (a b : Landmark), cm[i]? = some a ∧ cm[j]? = some b ∧
        i ≤ j ∧ j < i + 100 ∧ 2 ≤ b.time - a.time ∧ b.time - a.time ≤ 10 ∧
        h = hashVal a.freq b.freq (b.time - a.time) ∧ t = a.time := by
  intro h t s hmem
  obtain ⟨i, j, a, b, h1, h2, h3, h4, h5, h6, h7, h8, _⟩ :=
    mem_create_hashes_provenance hmem
  exact ⟨i, j, a, b, h1, h2, h3, h4, h5, h6, h7, h8⟩

set_option maxRecDepth 4000 in
unseal Rat.mul Rat.inv Rat.add Rat.sub in
/-- Claim C7, witness: the provenance of the single hash of a concrete
two-landmark constellation map. -/
theorem c7_time_delta_filter_witness :
    ∃ (i j : ℕ) (a b : Landmark),
      ([⟨0, 0⟩, ⟨2, 100⟩] : List Landmark)[i]? = some a ∧
      ([⟨0, 0⟩, ⟨2, 100⟩] : List Landmark)[j]? = some b ∧
      i ≤ j ∧ j < i + 100 ∧ 2 ≤ b.time - a.time ∧ b.time - a.time ≤ 10 ∧
      (2101248 : ℤ) = hashVal a.freq b.freq (b.time - a.time) ∧ (0 : ℤ) = a.time :=
  c7_time_delta_filter [⟨0, 0⟩, ⟨2, 100⟩] none 2101248 0 none (by decide)

set_option maxRecDepth 4000 in
unseal Rat.mul Rat.inv Rat.add Rat.sub in
/-- Claim C3, witness: the amended hash-range invariant applied to a
concrete in-range constellation map, decoding the hash 2101248 back to
its generating pair's scaled frequencies and time delta. -/
theorem c3_hash_range_witness :
    0 ≤ (2101248 : ℤ) ∧ (2101248 : ℤ) < 2 ^ 30 ∧
      ∃ (i j : ℕ) (a b : Landmark),
        ([⟨0, 0⟩, ⟨2, 100⟩] : List Landmark)[i]? = some a ∧
        ([⟨0, 0⟩, ⟨2, 100⟩] : List Landmark)[j]? = some b ∧
        i ≤ j ∧ j < i + 100 ∧ (0 : ℤ) = a.time ∧
        0 ≤ pyInt (a.freq / 23000 * 2 ^ 10) ∧ pyInt (a.freq / 23000 * 2 ^ 10) < 2 ^ 10 ∧
        0 ≤ pyInt (b.freq / 23000 * 2 ^ 10) ∧ pyInt (b.freq / 23000 * 2 ^ 10) < 2 ^ 10 ∧
        2 ≤ b.time - a.time ∧ b.time - a.time ≤ 10 ∧
        (2101248 : ℤ) = pyInt (a.freq / 23000 * 2 ^ 10) +
          pyInt (b.freq / 23000 * 2 ^ 10) * 2 ^ 10 + (b.time - a.time) * 2 ^ 20 ∧
        (2101248 : ℤ) % 2 ^ 10 = pyInt (a.freq / 23000 * 2 ^ 10) ∧
        ((2101248 : ℤ) / 2 ^ 10) % 2 ^ 10 = pyInt (b.freq / 23000 * 2 ^ 10) ∧
        (2101248 : ℤ) / 2 ^ 20 = b.time - a.time :=
  c3_hash_range [⟨0, 0⟩, ⟨2, 100⟩] none (by decide) 2101248 0 none (by decide)

theorem insertA_ne_nil {κ ν : Type} [DecidableEq κ] (m : List (κ × ν)) (k : κ) (v : ν) :
    insertA m k v ≠ [] := by
  cases m with
  | nil => simp [insertA]
  | cons hd tl =>
    obtain ⟨k', v'⟩ := hd
    by_cases h : k = k' <;> simp [insertA, h]

theorem foldl_insertA_ne_nil {κ ν : Type} [DecidableEq κ] (L : List (κ × ν)) :
    ∀ m : List (κ × ν), m ≠ [] → L.foldl (fun a p => insertA a p.1 p.2) m ≠ [] := by
  induction L with
  | nil => exact fun m hm => hm
  | cons hd tl ih => exact fun m _ => ih (insertA m hd.1 hd.2) (insertA_ne_nil m hd.1 hd.2)

theorem cm8_shape (k : ℕ) (x : Landmark) (h : cm8[k]? = some x) :
    (k = 0 ∧ x.time = 0) ∨ x.time = 1 ∨ (k = 100 ∧ x.time = 2) := by
  unfold cm8 at h
  match k with
  | 0 =>
    rw [List.getElem?_cons_zero] at h
    left
    exact ⟨rfl, by cases h; rfl⟩
  | k' + 1 =>
    rw [List.getElem?_cons_succ, List.getElem?_append] at h
    by_cases hk : k' < 99
    · rw [if_pos (by simpa using hk), List.getElem?_replicate, if_pos hk] at h
      right; left
      cases h; rfl
    · rw [if_neg (by simpa using hk)] at h
      simp only [List.length_replicate] at h
      by_cases hk' : k' - 99 = 0
      · rw [hk'] at h
        rw [List.getElem?_cons_zero] at h
        right; right
        exact ⟨by omega, by cases h; rfl⟩
      · obtain ⟨m, hm⟩ : ∃ m, k' - 99 = m + 1 := ⟨k' - 100, by omega⟩
        rw [hm, List.getElem?_cons_succ] at h
        simp at h

/-- Claim C8, counterexample: on `cm8` the code's `[idx : idx+100]`
windows produce no hash at all, while the claimed `[idx+1 : idx+101]`
windows would produce one (from the pair of positions 0 and 100, whose
time delta is 2).  So `create_hashes` does not examine "the next 100
landmarks": position `i + 100` is never reached. -/
theorem c8_counterexample :
    create_hashes cm8 none = [] ∧ claimCreateHashes cm8 none ≠ [] := by
  constructor
  · rw [create_hashes_eq_flat]
    have hitems : hashItems cm8 none = [] := by
      unfold hashItems
      rw [List.map_eq_nil_iff, List.filter_eq_nil_iff]
      intro pr hpr
      obtain ⟨i, j, hpi, hia, hjb, hij, hj100⟩ := mem_candidatePairs hpr
      rw [keepPair_iff]
      rcases cm8_shape i pr.1.2 hia with ⟨hi0, ha⟩ | ha | ⟨hi100, ha⟩ <;>
        rcases cm8_shape j pr.2 hjb with ⟨hj0, hb⟩ | hb | ⟨hj100', hb⟩ <;>
          omega
    rw [hitems]
    rfl
  · have hmem : ((0, (⟨0, 0⟩ : Landmark)), (⟨2, 100⟩ : Landmark)) ∈
        (claimCandidatePairs cm8).filter keepPair := by
      rw [List.mem_filter]
      constructor
      · unfold claimCandidatePairs
        rw [List.mem_flatMap]
        refine ⟨(0, ⟨0, 0⟩), List.mem_enum_iff_getElem?.mpr rfl, ?_⟩
        rw [List.mem_map]
        refine ⟨⟨2, 100⟩, ?_, rfl⟩
        have hdrop : cm8.drop (0 + 1) = List.replicate 99 ⟨1, 0⟩ ++ [⟨2, 100⟩] := rfl
        rw [hdrop, List.take_of_length_le (by simp)]
        simp
      · decide
    unfold claimCreateHashes
    have hne : ((claimCandidatePairs cm8).filter keepPair).map (mkItem none) ≠ [] := by
      intro hnil
      rw [List.map_eq_nil_iff] at hnil
      rw [hnil] at hmem
      simp at hmem
    cases he : ((claimCandidatePairs cm8).filter keepPair).map (mkItem none) with
    | nil => exact absurd he hne
    | cons x xs =>
      rw [List.foldl_cons]
      exact foldl_insertA_ne_nil xs _ (insertA_ne_nil [] x.1 x.2)

/-- Claim C8 (amended): for the anchor at position `i`, `create_hashes`
examines the 100-element slice starting at the anchor itself
(`constellation_map[i : i+100]`, positions `i` through `i+99`).  The
anchor's pair with itself is always rejected by the time-delta filter,
so the dict assignments are exactly those generated by the next 99
landmarks (positions `i+1` through `i+99`): no pair beyond that window
produces a hash, and every kept candidate inside it is processed. -/
theorem c8_anchor_window (cm : List Landmark) (sid : SongId) :
    create_hashes cm sid =
      (((effectiveCandidatePairs cm).filter keepPair).map (mkItem sid)).foldl
        (fun hs p => insertA hs p.1 p.2) [] := by
  rw [create_hashes_eq_flat]
  unfold hashItems candidatePairs effectiveCandidatePairs
  simp only [List.foldl_map, foldl_filterB, foldl_flatMapB]
  apply List.foldl_ext
  intro acc p hp
  have hcm : cm.drop p.1 = p.2 :: cm.drop (p.1 + 1) := by
    have hget := List.mem_enum_iff_getElem?.mp hp
    obtain ⟨hlt, hg⟩ := List.getElem?_eq_some_iff.mp hget
    rw [List.drop_eq_getElem_cons hlt, hg]
  have h100 : (100 : ℕ) = 99 + 1 := rfl
  rw [hcm, h100, List.take_succ_cons, List.foldl_cons]
  have hself : keepPair (p, p.2) = false := by
    simp [keepPair]
  rw [hself]
  simp

theorem bump_map_mem (L : List ℤ) (c : ℤ → ℕ) (d : ℤ) :
    L.Nodup → d ∈ L →
      bump (L.map (fun x => (x, c x))) d =
        L.map (fun x => (x, if x = d then c x + 1 else c x)) := by
  induction L with
  | nil => intro _ hd; simp at hd
  | cons x L' ih =>
    intro hnd hd
    rw [List.map_cons, List.map_cons]
    by_cases hx : d = x
    · subst hx
      have hnotin : d ∉ L' := (List.nodup_cons.mp hnd).1
      have hmap : L'.map (fun y => (y, if y = d then c y + 1 else c y)) =
          L'.map (fun y => (y, c y)) := by
        apply List.map_congr_left
        intro y hy
        have hyd : y ≠ d := fun h => hnotin (h ▸ hy)
        rw [if_neg hyd]
      simp [bump, hmap]
    · have hd' : d ∈ L' := by
        rcases List.mem_cons.mp hd with h | h
        · exact absurd h hx
        · exact h
      simp only [bump, if_neg hx]
      rw [ih (List.nodup_cons.mp hnd).2 hd', if_neg (Ne.symm hx)]

theorem bump_map_notMem (L : List ℤ) (c : ℤ → ℕ) (d : ℤ) (hd : d ∉ L) :
    bump (L.map (fun x => (x, c x))) d = L.map (fun x => (x, c x)) ++ [(d, 1)] := by
  induction L with
  | nil => rfl
  | cons x L' ih =>
    have hx : d ≠ x := fun h => hd (h ▸ List.mem_cons_self x L')
    simp only [List.map_cons, bump, if_neg hx]
    rw [ih (fun h => hd (List.mem_cons_of_mem _ h)), List.cons_append]

theorem mem_dedupFirst {a : ℤ} : ∀ {ds : List ℤ}, a ∈ dedupFirst ds ↔ a ∈ ds := by
  intro ds
  induction ds with
  | nil => simp [dedupFirst]
  | cons d ds' ih =>
    simp only [dedupFirst, List.mem_cons, List.mem_filter, ih, decide_eq_true_eq]
    by_cases ha : a = d
    · simp [ha]
    · simp [ha]

theorem nodup_dedupFirst : ∀ ds : List ℤ, (dedupFirst ds).Nodup := by
  intro ds
  induction ds with
  | nil => exact List.nodup_nil
  | cons d ds' ih =>
    rw [dedupFirst, List.nodup_cons]
    constructor
    · intro hmem
      have := (List.mem_filter.mp hmem).2
      simp at this
    · exact List.Nodup.filter _ ih

theorem dedupFirst_append_singleton (d : ℤ) :
    ∀ ds : List ℤ, dedupFirst (ds ++ [d]) =
      if d ∈ ds then dedupFirst ds else dedupFirst ds ++ [d] := by
  intro ds
  induction ds with
  | nil => simp [dedupFirst]
  | cons x ds' ih =>
    rw [List.cons_append, dedupFirst, ih, dedupFirst]
    by_cases hd : d ∈ ds'
    · rw [if_pos hd, if_pos (List.mem_cons_of_mem _ hd)]
    · rw [if_neg hd]
      by_cases hdx : d = x
      · rw [if_pos (by simp [hdx])]
        rw [List.filter_append]
        simp [hdx]
      · rw [if_neg (by simp [hdx, hd]), List.filter_append]
        simp only [List.filter_cons, List.filter_nil]
        rw [if_pos (by simp [hdx]), List.cons_append]

theorem histo_append_singleton (ds : List ℤ) (d : ℤ) :
    histo (ds ++ [d]) = bump (histo ds) d := by
  unfold histo
  rw [List.foldl_append, List.foldl_cons, List.foldl_nil]

theorem histo_eq (ds : List ℤ) :
    histo ds = (dedupFirst ds).map (fun d => (d, ds.count d)) := by
  induction ds using List.reverseRecOn with
  | nil => rfl
  | append_singleton ds d ih =>
    rw [histo_append_singleton, ih, dedupFirst_append_singleton]
    by_cases hd : d ∈ ds
    · rw [if_pos hd]
      rw [bump_map_mem (dedupFirst ds) _ d (nodup_dedupFirst ds) (mem_dedupFirst.mpr hd)]
      apply List.map_congr_left
      intro x hx
      rw [List.count_append]
      by_cases hxd : x = d
      · rw [if_pos hxd, hxd]
        simp
      · rw [if_neg hxd]
        have hc0 : List.count x [d] = 0 := by
          simp [List.count_singleton]
          exact fun h => hxd h.symm
        rw [hc0, Nat.add_zero]
    · rw [if_neg hd]
      rw [bump_map_notMem (dedupFirst ds) _ d (fun h => hd (mem_dedupFirst.mp h))]
      rw [List.map_append]
      congr 1
      · apply List.map_congr_left
        intro x hx
        have hxd : x ≠ d := fun h => hd (h ▸ mem_dedupFirst.mp hx)
        rw [List.count_append]
        have hc0 : List.count x [d] = 0 := by
          simp [List.count_singleton]
          exact fun h => hxd h.symm
        rw [hc0, Nat.add_zero]
      · simp only [List.map_cons, List.map_nil]
        rw [List.count_append]
        have h0 : List.count d ds = 0 := List.count_eq_zero.mpr hd
        simp [h0]

theorem histMax_cons (p : ℤ × ℕ) (os : List (ℤ × ℕ)) :
    histMax (p :: os) = max p.2 (histMax os) := rfl

theorem histMax_ge {os : List (ℤ × ℕ)} {p : ℤ × ℕ} (h : p ∈ os) : p.2 ≤ histMax os := by
  induction os with
  | nil => simp at h
  | cons q os' ih =>
    rw [histMax_cons]
    rcases List.mem_cons.mp h with rfl | h'
    · omega
    · have := ih h'
      omega

theorem foldl_max_spec (os : List (ℤ × ℕ)) : ∀ best : ℤ × ℕ,
    (histMax os ≤ best.2 →
      os.foldl (fun b p => if p.2 > b.2 then p else b) best = best) ∧
    (best.2 < histMax os →
      ∃ p, os.find? (fun q => q.2 == histMax os) = some p ∧
        os.foldl (fun b p => if p.2 > b.2 then p else b) best = p) := by
  induction os with
  | nil =>
    intro best
    refine ⟨fun _ => rfl, fun h => ?_⟩
    simp [histMax] at h
  | cons p os' ih =>
    intro best
    constructor
    · intro hle
      rw [histMax_cons] at hle
      rw [List.foldl_cons, if_neg (by omega)]
      exact (ih best).1 (by omega)
    · intro hlt
      by_cases hp : histMax os' ≤ p.2
      · have hMeq : histMax (p :: os') = p.2 := by rw [histMax_cons]; omega
        rw [hMeq] at hlt ⊢
        rw [List.foldl_cons, if_pos (by omega)]
        rw [List.find?_cons_of_pos _ (by simp)]
        exact ⟨p, rfl, (ih p).1 hp⟩
      · have hMeq : histMax (p :: os') = histMax os' := by rw [histMax_cons]; omega
        rw [hMeq] at hlt ⊢
        have hbeq2 : (p.2 == histMax os') = false := by
          simp
          omega
        obtain ⟨q, hq1, hq2⟩ := (ih (if p.2 > best.2 then p else best)).2 (by
          by_cases hc : p.2 > best.2
          · rw [if_pos hc]
            omega
          · rw [if_neg hc]
            omega)
        refine ⟨q, ?_, ?_⟩
        · rw [List.find?_cons]
          simp only [hbeq2]
          exact hq1
        · rw [List.foldl_cons]
          exact hq2

theorem maxPair_of_pos (os : List (ℤ × ℕ)) (hpos : 0 < histMax os) :
    ∃ p, os.find? (fun q => q.2 == histMax os) = some p ∧ maxPair os = p :=
  (foldl_max_spec os (0, 0)).2 (by simpa using hpos)

theorem find?_filter_eq (p q : ℤ → Bool) (h : ∀ x, q x = false → p x = false) :
    ∀ l : List ℤ, (l.filter q).find? p = l.find? p := by
  intro l
  induction l with
  | nil => rfl
  | cons x l' ih =>
    rw [List.filter_cons]
    by_cases hq : q x = true
    · rw [if_pos hq, List.find?_cons, List.find?_cons]
      cases hp : p x
      · simp only [hp]
        exact ih
      · simp only [hp]
    · rw [if_neg hq, List.find?_cons]
      have hq' : q x = false := by simpa using hq
      simp only [h x hq']
      exact ih

theorem find?_dedupFirst (p : ℤ → Bool) : ∀ ds : List ℤ, (dedupFirst ds).find? p = ds.find? p := by
  intro ds
  induction ds with
  | nil => rfl
  | cons d ds' ih =>
    rw [dedupFirst, List.find?_cons, List.find?_cons]
    cases hp : p d
    · simp only [hp]
      rw [find?_filter_eq p _ ?_ (dedupFirst ds'), ih]
      intro x hx
      have hxd : x = d := by simpa using hx
      rw [hxd]
      exact hp
    · simp only [hp]

theorem mem_insertDesc {x y : SongId × (ℤ × ℕ)} :
    ∀ {l : List (SongId × (ℤ × ℕ))}, x ∈ insertDesc y l ↔ x = y ∨ x ∈ l := by
  intro l
  induction l with
  | nil => simp [insertDesc]
  | cons z zs ih =>
    rw [insertDesc]
    by_cases hc : z.2.2 < y.2.2
    · rw [if_pos hc]
      simp [List.mem_cons]
    · rw [if_neg hc]
      simp only [List.mem_cons, ih]
      tauto

theorem mem_pySortDesc {x : SongId × (ℤ × ℕ)} (l : List (SongId × (ℤ × ℕ))) :
    x ∈ pySortDesc l ↔ x ∈ l := by
  unfold pySortDesc
  have h : ∀ acc, x ∈ l.foldl (fun acc x => insertDesc x acc) acc ↔ x ∈ acc ∨ x ∈ l := by
    induction l with
    | nil => simp
    | cons y ys ih =>
      intro acc
      rw [List.foldl_cons, ih (insertDesc y acc)]
      simp only [mem_insertDesc, List.mem_cons]
      tauto
  simpa using h []

theorem pairwise_insertDesc (x : SongId × (ℤ × ℕ)) :
    ∀ l : List (SongId × (ℤ × ℕ)), l.Pairwise (fun a b => b.2.2 ≤ a.2.2) →
      (insertDesc x l).Pairwise (fun a b => b.2.2 ≤ a.2.2) := by
  intro l
  induction l with
  | nil => intro _; simp [insertDesc]
  | cons y ys ih =>
    intro hl
    obtain ⟨hy, hys⟩ := List.pairwise_cons.mp hl
    rw [insertDesc]
    by_cases hc : y.2.2 < x.2.2
    · rw [if_pos hc]
      apply List.Pairwise.cons
      · intro z hz
        rcases List.mem_cons.mp hz with rfl | hz'
        · omega
        · have := hy z hz'
          omega
      · exact hl
    · rw [if_neg hc]
      apply List.Pairwise.cons
      · intro z hz
        rcases mem_insertDesc.mp hz with rfl | hz'
        · omega
        · exact hy z hz'
      · exact ih hys

theorem pairwise_pySortDesc (l : List (SongId × (ℤ × ℕ))) :
    (pySortDesc l).Pairwise (fun a b => b.2.2 ≤ a.2.2) := by
  unfold pySortDesc
  have h : ∀ acc, acc.Pairwise (fun a b => b.2.2 ≤ a.2.2) →
      (l.foldl (fun acc x => insertDesc x acc) acc).Pairwise (fun a b => b.2.2 ≤ a.2.2) := by
    induction l with
    | nil => exact fun acc h => h
    | cons y ys ih =>
      intro acc hacc
      rw [List.foldl_cons]
      exact ih (insertDesc y acc) (pairwise_insertDesc y acc hacc)
  exact h [] List.Pairwise.nil

theorem appendAt_keys {κ ν : Type} [DecidableEq κ] (k : κ) (v : ν) :
    ∀ m : List (κ × List ν),
      (appendAt m k v).map Prod.fst =
        if k ∈ m.map Prod.fst then m.map Prod.fst else m.map Prod.fst ++ [k] := by
  intro m
  induction m with
  | nil => simp [appendAt]
  | cons hd tl ih =>
    obtain ⟨k', vs⟩ := hd
    by_cases h : k = k'
    · simp [appendAt, h]
    · simp only [appendAt, if_neg h, List.map_cons, ih]
      have : (k ∈ k' :: tl.map Prod.fst) ↔ (k ∈ tl.map Prod.fst) := by
        simp [List.mem_cons, h]
      by_cases hmem : k ∈ tl.map Prod.fst
      · rw [if_pos hmem, if_pos (this.mpr hmem)]
      · rw [if_neg hmem, if_neg (fun hc => hmem (this.mp hc)), List.cons_append]

theorem appendAt_nodup_keys {κ ν : Type} [DecidableEq κ] (m : List (κ × List ν)) (k : κ) (v : ν)
    (h : (m.map Prod.fst).Nodup) : ((appendAt m k v).map Prod.fst).Nodup := by
  rw [appendAt_keys]
  by_cases hmem : k ∈ m.map Prod.fst
  · rw [if_pos hmem]
    exact h
  · rw [if_neg hmem, ← List.concat_eq_append]
    exact List.Nodup.concat hmem h

theorem appendAt_values_ne_nil {κ ν : Type} [DecidableEq κ]
    (k : κ) (v : ν) : ∀ m : List (κ × List ν), (∀ p ∈ m, p.2 ≠ []) →
      ∀ p ∈ appendAt m k v, p.2 ≠ [] := by
  intro m
  induction m with
  | nil =>
    intro _ p hp
    simp only [appendAt, List.mem_singleton] at hp
    subst hp
    simp
  | cons hd tl ih =>
    intro hm p hp
    obtain ⟨k', vs⟩ := hd
    by_cases h : k = k'
    · simp only [appendAt, if_pos h, List.mem_cons] at hp
      rcases hp with rfl | hp
      · simp
      · exact hm p (List.mem_cons_of_mem _ hp)
    · simp only [appendAt, if_neg h, List.mem_cons] at hp
      rcases hp with rfl | hp
      · exact hm (k', vs) (List.mem_cons_self _ _)
      · exact ih (fun q hq => hm q (List.mem_cons_of_mem _ hq)) p hp

theorem inv_foldl_appendAt {κ ν π : Type} [DecidableEq κ] (kf : π → κ) (vf : π → ν) :
    ∀ (is : List π) (m : List (κ × List ν)),
      (m.map Prod.fst).Nodup → (∀ p ∈ m, p.2 ≠ []) →
        (((is.foldl (fun a i => appendAt a (kf i) (vf i)) m).map Prod.fst).Nodup ∧
          ∀ p ∈ is.foldl (fun a i => appendAt a (kf i) (vf i)) m, p.2 ≠ []) := by
  intro is
  induction is with
  | nil => exact fun m h1 h2 => ⟨h1, h2⟩
  | cons i is' ih =>
    intro m h1 h2
    rw [List.foldl_cons]
    exact ih _ (appendAt_nodup_keys m _ _ h1) (appendAt_values_ne_nil _ _ m h2)

theorem songMatches_inv (hashes : List (ℤ × (ℤ × SongId)))
    (database : List (ℤ × List (ℤ × SongId))) :
    (((songMatches hashes database).map Prod.fst).Nodup ∧
      ∀ p ∈ songMatches hashes database, p.2 ≠ []) := by
  unfold songMatches
  have h : ∀ (hs : List (ℤ × (ℤ × SongId))) (acc : List (SongId × List (ℤ × ℤ × ℤ))),
      (acc.map Prod.fst).Nodup → (∀ p ∈ acc, p.2 ≠ []) →
        (((hs.foldl (fun sm p =>
            match lookupA database p.1 with
            | none => sm
            | some match_list =>
                match_list.foldl (fun sm q => appendAt sm q.2 (p.1, p.2.1, q.1)) sm) acc).map
          Prod.fst).Nodup ∧
          ∀ p ∈ hs.foldl (fun sm p =>
            match lookupA database p.1 with
            | none => sm
            | some match_list =>
                match_list.foldl (fun sm q => appendAt sm q.2 (p.1, p.2.1, q.1)) sm) acc,
            p.2 ≠ []) := by
    intro hs
    induction hs with
    | nil => exact fun acc h1 h2 => ⟨h1, h2⟩
    | cons x hs' ih =>
      intro acc h1 h2
      rw [List.foldl_cons]
      cases hl : lookupA database x.1 with
      | none =>
        simp only [hl]
        exact ih acc h1 h2
      | some ml =>
        simp only [hl]
        obtain ⟨h1', h2'⟩ := inv_foldl_appendAt (fun q : ℤ × SongId => q.2)
          (fun q : ℤ × SongId => (x.1, x.2.1, q.1)) ml acc h1 h2
        exact ih _ h1' h2'
  exact h hashes [] (by simp) (by simp)

theorem lookupA_eq_some_of_mem {κ ν : Type} [DecidableEq κ] :
    ∀ (m : List (κ × ν)), (m.map Prod.fst).Nodup →
      ∀ k v, (k, v) ∈ m → lookupA m k = some v := by
  intro m
  induction m with
  | nil => intro _ k v h; simp at h
  | cons hd tl ih =>
    intro hnd k v hm
    obtain ⟨k', v'⟩ := hd
    rcases List.mem_cons.mp hm with heq | hm'
    · cases heq
      simp [lookupA]
    · have hk : k ≠ k' := by
        intro hk
        subst hk
        have : k ∈ tl.map Prod.fst := List.mem_map.mpr ⟨(k, v), hm', rfl⟩
        exact (List.nodup_cons.mp (by simpa using hnd)).1 this
      simp only [lookupA, if_neg hk]
      exact ih (List.nodup_cons.mp (by simpa using hnd)).2 k v hm'

theorem mem_of_lookupA_eq_some {κ ν : Type} [DecidableEq κ] :
    ∀ (m : List (κ × ν)) (k : κ) (v : ν), lookupA m k = some v → (k, v) ∈ m := by
  intro m
  induction m with
  | nil => intro k v h; simp [lookupA] at h
  | cons hd tl ih =>
    intro k v h
    obtain ⟨k', v'⟩ := hd
    by_cases hk : k = k'
    · rw [lookupA, if_pos hk] at h
      cases h
      subst hk
      exact List.mem_cons_self _ _
    · rw [lookupA, if_neg hk] at h
      exact List.mem_cons_of_mem _ (ih k v h)

theorem offsetHist_eq_histo (ms : List (ℤ × ℤ × ℤ)) : offsetHist ms = histo (deltasOf ms) := by
  unfold offsetHist histo deltasOf
  rw [List.foldl_map]

theorem histMax_offsetHist_pos {ms : List (ℤ × ℤ × ℤ)} (hne : ms ≠ []) :
    0 < histMax (offsetHist ms) := by
  have hdsne : deltasOf ms ≠ [] := by
    unfold deltasOf
    simpa using hne
  obtain ⟨d0, hd0⟩ := List.exists_mem_of_ne_nil _ hdsne
  have hd0' : (d0, (deltasOf ms).count d0) ∈ offsetHist ms := by
    rw [offsetHist_eq_histo, histo_eq]
    exact List.mem_map.mpr ⟨d0, mem_dedupFirst.mpr hd0, rfl⟩
  have hcount : 0 < (deltasOf ms).count d0 := List.count_pos_iff.mpr hd0
  have := histMax_ge hd0'
  simp only at this
  omega

theorem score_entry_spec {hashes : List (ℤ × (ℤ × SongId))}
    {database : List (ℤ × List (ℤ × SongId))} {e : SongId × (ℤ × ℕ)}
    (he : e ∈ score_songs hashes database) :
    ∃ ms : List (ℤ × ℤ × ℤ),
      lookupA (songMatches hashes database) e.1 = some ms ∧ ms ≠ [] ∧
        maxPair (offsetHist ms) = e.2 ∧ e.2.2 = histMax (offsetHist ms) ∧
        0 < histMax (offsetHist ms) ∧
        (offsetHist ms).find? (fun q => q.2 == histMax (offsetHist ms)) = some e.2 := by
  unfold score_songs at he
  rw [mem_pySortDesc] at he
  obtain ⟨pr, hpr, heq⟩ := List.mem_map.mp he
  obtain ⟨hnd, hvals⟩ := songMatches_inv hashes database
  have he1 : e.1 = pr.1 := by rw [← heq]
  have he2 : e.2 = maxPair (offsetHist pr.2) := by rw [← heq]
  have hlk : lookupA (songMatches hashes database) e.1 = some pr.2 := by
    rw [he1]
    exact lookupA_eq_some_of_mem _ hnd pr.1 pr.2 (by simpa using hpr)
  have hne : pr.2 ≠ [] := hvals pr hpr
  have hMpos := histMax_offsetHist_pos hne
  obtain ⟨p, hfind, hmaxp⟩ := maxPair_of_pos (offsetHist pr.2) hMpos
  have hpe : p = e.2 := by rw [he2, hmaxp]
  have hsc : e.2.2 = histMax (offsetHist pr.2) := by
    have := List.find?_some hfind
    simp only [beq_iff_eq] at this
    rw [← hpe, this]
  exact ⟨pr.2, hlk, hne, he2.symm, hsc, hMpos, by rw [← hpe]; exact hfind⟩

theorem songMatches_no_hit (hashes : List (ℤ × (ℤ × SongId)))
    (database : List (ℤ × List (ℤ × SongId)))
    (h : ∀ p ∈ hashes, lookupA database p.1 = none) : songMatches hashes database = [] := by
  unfold songMatches
  induction hashes with
  | nil => rfl
  | cons x hs ih =>
    rw [List.foldl_cons]
    have hx := h x (List.mem_cons_self _ _)
    simp only [hx]
    exact ih (fun p hp => h p (List.mem_cons_of_mem _ hp))

/-- Claim C2: every song appearing in the output of `score_songs` is
reported with score equal to the maximum, over all offsets `d`, of the
number of its matched `(hash, sample_time, ref_time)` triples with
`ref_time - sample_time = d`, and with best offset equal to the first
offset attaining that maximum in iteration order (the order in which
offsets are first encountered while scanning the song's match list). -/
theorem c2_modal_offset (hashes : List (ℤ × (ℤ × SongId)))
    (database : List (ℤ × List (ℤ × SongId))) (song : SongId) (off : ℤ) (sc : ℕ)
    (hmem : (song, (off, sc)) ∈ score_songs hashes database) :
    (∀ d : ℤ, (deltasOf (matchesFor hashes database song)).count d ≤ sc) ∧
      (deltasOf (matchesFor hashes database song)).find?
        (fun d => (deltasOf (matchesFor hashes database song)).count d == sc) = some off := by
  obtain ⟨ms, hlk, hne, hmax, hsc, hpos, hfind⟩ := score_entry_spec hmem
  have hms : matchesFor hashes database song = ms := by
    unfold matchesFor
    rw [hlk]
    rfl
  rw [hms]
  have hhist : offsetHist ms =
      (dedupFirst (deltasOf ms)).map (fun d => (d, (deltasOf ms).count d)) := by
    rw [offsetHist_eq_histo, histo_eq]
  have hscM : sc = histMax (offsetHist ms) := hsc
  constructor
  · intro d
    by_cases hd : d ∈ deltasOf ms
    · have hmem2 : (d, (deltasOf ms).count d) ∈ offsetHist ms := by
        rw [hhist]
        exact List.mem_map.mpr ⟨d, mem_dedupFirst.mpr hd, rfl⟩
      have := histMax_ge hmem2
      simp only at this
      omega
    · rw [List.count_eq_zero.mpr hd]
      omega
  · have h1 : (offsetHist ms).find? (fun q => q.2 == sc) = some (off, sc) := by
      have h2 := hfind
      rw [← hscM] at h2
      exact h2
    rw [hhist, List.find?_map, find?_dedupFirst] at h1
    obtain ⟨d1, hd1, hfd1⟩ := Option.map_eq_some'.mp h1
    have hd1off : d1 = off := congrArg Prod.fst hfd1
    rw [hd1off] at hd1
    simpa [Function.comp] using hd1

/-- Claim C6: the output of `score_songs` is sorted by score descending,
contains no entry with score 0 (a song with zero matching hashes never
appears), and is empty whenever no query hash collides with any index
entry — in particular when the index itself is empty. -/
theorem c6_ranked_output (hashes : List (ℤ × (ℤ × SongId)))
    (database : List (ℤ × List (ℤ × SongId))) :
    (score_songs hashes database).Pairwise (fun a b => b.2.2 ≤ a.2.2) ∧
      (∀ e ∈ score_songs hashes database, 1 ≤ e.2.2) ∧
      ((∀ p ∈ hashes, lookupA database p.1 = none) → score_songs hashes database = []) ∧
      score_songs hashes [] = [] := by
  refine ⟨?_, ?_, ?_, ?_⟩
  · unfold score_songs
    exact pairwise_pySortDesc _
  · intro e he
    obtain ⟨ms, _, _, _, hsc, hpos, _⟩ := score_entry_spec he
    omega
  · intro h
    unfold score_songs
    rw [songMatches_no_hit hashes database h]
    rfl
  · unfold score_songs
    rw [songMatches_no_hit hashes [] (fun p _ => rfl)]
    rfl

set_option maxRecDepth 4000 in
unseal Rat.mul Rat.inv Rat.add Rat.sub in
/-- Claim C2, witness: the modal-offset property applied to the single
entry of a concrete one-song query. -/
theorem c2_modal_offset_witness :
    (∀ d : ℤ,
      (deltasOf (matchesFor (create_hashes [⟨0, 0⟩, ⟨2, 100⟩] none)
        (buildDB [[⟨0, 0⟩, ⟨2, 100⟩]]) (some 0))).count d ≤ 1) ∧
      (deltasOf (matchesFor (create_hashes [⟨0, 0⟩, ⟨2, 100⟩] none)
        (buildDB [[⟨0, 0⟩, ⟨2, 100⟩]]) (some 0))).find?
        (fun d => (deltasOf (matchesFor (create_hashes [⟨0, 0⟩, ⟨2, 100⟩] none)
          (buildDB [[⟨0, 0⟩, ⟨2, 100⟩]]) (some 0))).count d == 1) = some 0 :=
  c2_modal_offset (create_hashes [⟨0, 0⟩, ⟨2, 100⟩] none)
    (buildDB [[⟨0, 0⟩, ⟨2, 100⟩]]) (some 0) 0 1 (by decide)

set_option maxRecDepth 4000 in
unseal Rat.mul Rat.inv Rat.add Rat.sub in
/-- Claim C6, witness: the no-score-0 and empty-index parts applied to a
concrete query. -/
theorem c6_ranked_output_witness :
    (1 : ℕ) ≤ ((some 0, ((0 : ℤ), (1 : ℕ))) : SongId × (ℤ × ℕ)).2.2 ∧
      score_songs (create_hashes [⟨0, 0⟩, ⟨2, 100⟩] none) [] = [] :=
  ⟨(c6_ranked_output (create_hashes [⟨0, 0⟩, ⟨2, 100⟩] none)
      (buildDB [[⟨0, 0⟩, ⟨2, 100⟩]])).2.1 _ (by decide),
    (c6_ranked_output (create_hashes [⟨0, 0⟩, ⟨2, 100⟩] none) []).2.2.1 (by decide)⟩

theorem lookupA_appendAt {κ ν : Type} [DecidableEq κ] (k : κ) (v : ν) (h : κ) :
    ∀ m : List (κ × List ν),
      lookupA (appendAt m k v) h =
        if h = k then some ((lookupA m k).getD [] ++ [v]) else lookupA m h := by
  intro m
  induction m with
  | nil =>
    by_cases hk : h = k
    · simp [appendAt, lookupA, hk]
    · simp [appendAt, lookupA, hk, Ne.symm hk]
  | cons hd tl ih =>
    obtain ⟨k', vs⟩ := hd
    by_cases hkk : k = k'
    · subst hkk
      by_cases hk : h = k
      · subst hk
        simp [appendAt, lookupA]
      · simp [appendAt, lookupA, hk]
    · have happ : appendAt ((k', vs) :: tl) k v = (k', vs) :: appendAt tl k v := by
        simp [appendAt, hkk]
      rw [happ]
      by_cases hk : h = k'
      · have hnk : ¬h = k := fun hc => hkk (by rw [← hc, hk])
        simp only [lookupA, if_pos hk, if_neg hnk]
      · simp only [lookupA, if_neg hk]
        rw [ih]
        by_cases hc : h = k
        · rw [if_pos hc, if_pos hc, if_neg hkk]
        · rw [if_neg hc, if_neg hc]

theorem bucket_foldl_appendAt (hs : List (ℤ × (ℤ × SongId))) :
    ∀ (db : List (ℤ × List (ℤ × SongId))) (h : ℤ),
      bucket (hs.foldl (fun a p => appendAt a p.1 p.2) db) h =
        bucket db h ++ (hs.filter (fun p => p.1 == h)).map (fun p => p.2) := by
  induction hs with
  | nil => intro db h; simp
  | cons x hs' ih =>
    intro db h
    rw [List.foldl_cons, ih, List.filter_cons]
    by_cases hx : x.1 = h
    · rw [if_pos (by simpa using hx), List.map_cons]
      have hb : bucket (appendAt db x.1 x.2) h = bucket db h ++ [x.2] := by
        unfold bucket
        rw [lookupA_appendAt, if_pos hx.symm, hx]
        simp
      rw [hb, List.append_cons, List.append_assoc]
      simp
    · rw [if_neg (by simpa using hx)]
      have hb : bucket (appendAt db x.1 x.2) h = bucket db h := by
        unfold bucket
        rw [lookupA_appendAt, if_neg (fun hc => hx hc.symm)]
      rw [hb]

/-- Claim C5: index construction is append-only.  The bucket stored for
any hash after the whole build pass is exactly the concatenation, in
corpus order, of the `(time, song_id)` values of that hash in each
recording's hash dict: one insertion per generated hash item, nothing
overwritten, every reference occurrence of every recording preserved. -/
theorem c5_index_append_only (corpus : List (List Landmark)) (h : ℤ) :
    bucket (buildDB corpus) h =
      (corpus.enum.map (fun p =>
        ((create_hashes p.2 (some p.1)).filter (fun e => e.1 == h)).map
          (fun e => e.2))).flatten ∧
    ∀ i cm t s, corpus[i]? = some cm →
      lookupA (create_hashes cm (some i)) h = some (t, s) →
        (t, s) ∈ bucket (buildDB corpus) h := by
  have hmain : ∀ (L : List (ℕ × List Landmark)) (db : List (ℤ × List (ℤ × SongId))),
      bucket (L.foldl (fun db p => addRecording db (create_hashes p.2 (some p.1))) db) h =
        bucket db h ++ (L.map (fun p =>
          ((create_hashes p.2 (some p.1)).filter (fun e => e.1 == h)).map
            (fun e => e.2))).flatten := by
    intro L
    induction L with
    | nil => intro db; simp
    | cons x L' ih =>
      intro db
      rw [List.foldl_cons, ih, List.map_cons, List.flatten_cons]
      unfold addRecording
      rw [bucket_foldl_appendAt]
      rw [List.append_assoc]
  have h1 : bucket (buildDB corpus) h =
      (corpus.enum.map (fun p =>
        ((create_hashes p.2 (some p.1)).filter (fun e => e.1 == h)).map
          (fun e => e.2))).flatten := by
    unfold buildDB
    rw [hmain corpus.enum []]
    simp [bucket, lookupA]
  refine ⟨h1, ?_⟩
  intro i cm t s hcm hlook
  rw [h1]
  rw [List.mem_flatten]
  refine ⟨((create_hashes cm (some i)).filter (fun e => e.1 == h)).map (fun e => e.2), ?_, ?_⟩
  · exact List.mem_map.mpr ⟨(i, cm), List.mem_enum_iff_getElem?.mpr hcm, rfl⟩
  · have hm := mem_of_lookupA_eq_some _ _ _ hlook
    exact List.mem_map.mpr ⟨(h, (t, s)), List.mem_filter.mpr ⟨hm, by simp⟩, rfl⟩

theorem insertA_map_sid {κ ν ν' : Type} [DecidableEq κ] (g : ν → ν') (k : κ) (v : ν) :
    ∀ m : List (κ × ν),
      insertA (m.map (fun p => (p.1, g p.2))) k (g v) =
        (insertA m k v).map (fun p => (p.1, g p.2)) := by
  intro m
  induction m with
  | nil => rfl
  | cons hd tl ih =>
    obtain ⟨k', v'⟩ := hd
    by_cases h : k = k'
    · simp [insertA, h]
    · simp only [List.map_cons, insertA, if_neg h, ih]

theorem foldl_insertA_map {κ ν ν' : Type} [DecidableEq κ] (g : ν → ν') :
    ∀ (L : List (κ × ν)) (acc : List (κ × ν)),
      (L.map (fun p => (p.1, g p.2))).foldl (fun m p => insertA m p.1 p.2)
          (acc.map (fun p => (p.1, g p.2))) =
        (L.foldl (fun m p => insertA m p.1 p.2) acc).map (fun p => (p.1, g p.2)) := by
  intro L
  induction L with
  | nil => intro acc; rfl
  | cons hd tl ih =>
    intro acc
    rw [List.map_cons, List.foldl_cons, List.foldl_cons]
    rw [show (insertA (acc.map (fun p => (p.1, g p.2))) hd.1 (g hd.2)) =
        (insertA acc hd.1 hd.2).map (fun p => (p.1, g p.2)) from insertA_map_sid g hd.1 hd.2 acc]
    exact ih (insertA acc hd.1 hd.2)

theorem create_hashes_map_sid (cm : List Landmark) (sid : SongId) :
    create_hashes cm sid =
      (create_hashes cm none).map (fun p => (p.1, (p.2.1, sid))) := by
  rw [create_hashes_eq_flat, create_hashes_eq_flat]
  have hitems : hashItems cm sid =
      (hashItems cm none).map (fun p => (p.1, (p.2.1, sid))) := by
    unfold hashItems
    rw [List.map_map]
    rfl
  rw [hitems]
  have := foldl_insertA_map (fun v : ℤ × SongId => (v.1, sid)) (hashItems cm none) []
  simpa using this

theorem insertA_keys {κ ν : Type} [DecidableEq κ] (k : κ) (v : ν) :
    ∀ m : List (κ × ν),
      (insertA m k v).map Prod.fst =
        if k ∈ m.map Prod.fst then m.map Prod.fst else m.map Prod.fst ++ [k] := by
  intro m
  induction m with
  | nil => simp [insertA]
  | cons hd tl ih =>
    obtain ⟨k', v'⟩ := hd
    by_cases h : k = k'
    · simp [insertA, h]
    · simp only [insertA, if_neg h, List.map_cons, ih]
      have hiff : (k ∈ k' :: tl.map Prod.fst) ↔ (k ∈ tl.map Prod.fst) := by
        simp [List.mem_cons, h]
      by_cases hmem : k ∈ tl.map Prod.fst
      · rw [if_pos hmem, if_pos (hiff.mpr hmem)]
      · rw [if_neg hmem, if_neg (fun hc => hmem (hiff.mp hc)), List.cons_append]

theorem nodup_keys_foldl_insertA {κ ν : Type} [DecidableEq κ] :
    ∀ (L : List (κ × ν)) (m : List (κ × ν)), (m.map Prod.fst).Nodup →
      (((L.foldl (fun a p => insertA a p.1 p.2) m).map Prod.fst)).Nodup := by
  intro L
  induction L with
  | nil => exact fun m h => h
  | cons hd tl ih =>
    intro m hm
    rw [List.foldl_cons]
    apply ih
    rw [insertA_keys]
    by_cases hmem : hd.1 ∈ m.map Prod.fst
    · rw [if_pos hmem]
      exact hm
    · rw [if_neg hmem, ← List.concat_eq_append]
      exact List.Nodup.concat hmem hm

theorem create_hashes_nodup_keys (cm : List Landmark) (sid : SongId) :
    ((create_hashes cm sid).map Prod.fst).Nodup := by
  rw [create_hashes_eq_flat]
  exact nodup_keys_foldl_insertA _ [] (by simp)

theorem filter_key_of_nodup {κ ν : Type} [DecidableEq κ] [BEq κ] [LawfulBEq κ] :
    ∀ m : List (κ × ν), (m.map Prod.fst).Nodup → ∀ k v, (k, v) ∈ m →
      m.filter (fun p => p.1 == k) = [(k, v)] := by
  intro m
  induction m with
  | nil => intro _ k v h; simp at h
  | cons hd tl ih =>
    intro hnd k v hm
    obtain ⟨k', v'⟩ := hd
    rw [List.map_cons] at hnd
    have hnd' := List.nodup_cons.mp hnd
    rcases List.mem_cons.mp hm with heq | hm'
    · cases heq
      rw [List.filter_cons, if_pos (by simp)]
      have hfil : tl.filter (fun p => p.1 == k) = [] := by
        rw [List.filter_eq_nil_iff]
        intro p hp hbeq
        have : p.1 = k := by simpa using hbeq
        exact hnd'.1 (this ▸ List.mem_map.mpr ⟨p, hp, rfl⟩)
      rw [hfil]
    · have hk : k ≠ k' := by
        intro hk
        subst hk
        exact hnd'.1 (List.mem_map.mpr ⟨(k, v), hm', rfl⟩)
      rw [List.filter_cons, if_neg (by simpa using Ne.symm hk)]
      exact ih hnd'.2 k v hm'

theorem lookupA_of_bucket_ne_nil (db : List (ℤ × List (ℤ × SongId))) (h : ℤ)
    (hne : bucket db h ≠ []) : lookupA db h = some (bucket db h) := by
  unfold bucket at *
  cases hl : lookupA db h with
  | none => rw [hl] at hne; simp at hne
  | some vs => rfl

theorem selfdb_lookup (cm : List Landmark) :
    ∀ p ∈ create_hashes cm none,
      lookupA (addRecording [] (create_hashes cm (some 0))) p.1 =
        some [(p.2.1, some 0)] := by
  intro p hp
  have hr : (p.1, (p.2.1, some 0)) ∈ create_hashes cm (some 0) := by
    rw [create_hashes_map_sid cm (some 0)]
    exact List.mem_map.mpr ⟨p, hp, rfl⟩
  have hfil : (create_hashes cm (some 0)).filter (fun e => e.1 == p.1) =
      [(p.1, (p.2.1, some 0))] :=
    filter_key_of_nodup _ (create_hashes_nodup_keys cm (some 0)) _ _ hr
  have hb : bucket (addRecording [] (create_hashes cm (some 0))) p.1 = [(p.2.1, some 0)] := by
    unfold addRecording
    rw [bucket_foldl_appendAt, hfil]
    simp [bucket, lookupA]
  rw [lookupA_of_bucket_ne_nil _ _ (by rw [hb]; simp), hb]

theorem songMatches_const (db : List (ℤ × List (ℤ × SongId))) :
    ∀ (q : List (ℤ × (ℤ × SongId))) (ts : List (ℤ × ℤ × ℤ)),
      (∀ p ∈ q, lookupA db p.1 = some [(p.2.1, some 0)]) →
        q.foldl (fun sm p =>
            match lookupA db p.1 with
            | none => sm
            | some match_list =>
                match_list.foldl (fun sm q => appendAt sm q.2 (p.1, p.2.1, q.1)) sm)
          [(some 0, ts)] =
          [(some 0, ts ++ q.map (fun p => (p.1, p.2.1, p.2.1)))] := by
  intro q
  induction q with
  | nil => intro ts _; simp
  | cons x q' ih =>
    intro ts h
    rw [List.foldl_cons]
    have hx := h x (List.mem_cons_self _ _)
    simp only [hx]
    rw [List.foldl_cons, List.foldl_nil]
    have happ : appendAt [((some 0 : SongId), ts)] (some 0 : SongId) (x.1, x.2.1, x.2.1) =
        [(some 0, ts ++ [(x.1, x.2.1, x.2.1)])] := by
      simp [appendAt]
    rw [happ, ih (ts ++ [(x.1, x.2.1, x.2.1)]) (fun p hp => h p (List.mem_cons_of_mem _ hp))]
    rw [List.append_assoc]
    rfl

theorem songMatches_self (cm : List Landmark) (hne : create_hashes cm none ≠ []) :
    songMatches (create_hashes cm none) (addRecording [] (create_hashes cm (some 0))) =
      [(some 0, (create_hashes cm none).map (fun p => (p.1, p.2.1, p.2.1)))] := by
  have hlook := selfdb_lookup cm
  unfold songMatches
  cases hq : create_hashes cm none with
  | nil => exact absurd hq hne
  | cons x q' =>
    rw [hq] at hlook
    rw [List.foldl_cons]
    have hx := hlook x (List.mem_cons_self _ _)
    simp only [hx]
    rw [List.foldl_cons, List.foldl_nil]
    have happ : appendAt ([] : List (SongId × List (ℤ × ℤ × ℤ))) (some 0 : SongId)
        (x.1, x.2.1, x.2.1) = [(some 0, [(x.1, x.2.1, x.2.1)])] := by
      simp [appendAt]
    rw [happ, songMatches_const _ q' _ (fun p hp => hlook p (List.mem_cons_of_mem _ hp))]
    simp

theorem histo_all_zero (ds : List ℤ) (hz : ∀ d ∈ ds, d = 0) (hne : ds ≠ []) :
    histo ds = [(0, ds.length)] := by
  rw [histo_eq]
  have hd : dedupFirst ds = [0] := by
    cases hds : ds with
    | nil => exact absurd hds hne
    | cons d ds' =>
      have hd0 : d = 0 := hz d (hds ▸ List.mem_cons_self _ _)
      rw [dedupFirst, hd0]
      have hfil : (dedupFirst ds').filter (fun x => decide (x ≠ 0)) = [] := by
        rw [List.filter_eq_nil_iff]
        intro x hx
        have : x = 0 := hz x (hds ▸ List.mem_cons_of_mem _ (mem_dedupFirst.mp hx))
        simp [this]
      rw [hfil]
  rw [hd, List.map_cons, List.map_nil]
  have hcount : List.count 0 ds = ds.length := by
    rw [List.count_eq_length]
    intro b hb
    simp [hz b hb]
  rw [hcount]

theorem maxPair_single_pos (o : ℤ) (n : ℕ) (h : 0 < n) : maxPair [(o, n)] = (o, n) := by
  unfold maxPair
  rw [List.foldl_cons, List.foldl_nil]
  simp only
  rw [if_pos (by simpa using h)]

/-- Claim C1, counterexample: for a recording whose fingerprint hash
map is empty (here the empty constellation map) the match result list is
empty, so there is no top result at all — the self-match property as
stated fails for such recordings. -/
theorem c1_counterexample :
    create_hashes ([] : List Landmark) none = [] ∧
      (score_songs (create_hashes [] none) (buildDB [[]])).head? = none :=
  ⟨rfl, rfl⟩

/-- Claim C1 (amended): for every recording whose fingerprint hash map
is nonempty, matching the recording's own query hash set against the
index built solely from that recording yields exactly one result: the
recording's song id 0, with offset 0 and score equal to the number of
query hashes — all of which occur in the index, so the score equals the
number of hashes common to the query map and the index. -/
theorem c1_self_match (cm : List Landmark) (hne : create_hashes cm none ≠ []) :
    score_songs (create_hashes cm none) (buildDB [cm]) =
      [(some 0, (0, (create_hashes cm none).length))] ∧
      ∀ p ∈ create_hashes cm none, (lookupA (buildDB [cm]) p.1).isSome := by
  have hdb : buildDB [cm] = addRecording [] (create_hashes cm (some 0)) := rfl
  constructor
  · unfold score_songs
    rw [hdb, songMatches_self cm hne, List.map_cons, List.map_nil]
    have hoff : offsetHist ((create_hashes cm none).map (fun p => (p.1, p.2.1, p.2.1))) =
        [(0, (create_hashes cm none).length)] := by
      rw [offsetHist_eq_histo]
      have hlen : (deltasOf ((create_hashes cm none).map (fun p => (p.1, p.2.1, p.2.1)))).length =
          (create_hashes cm none).length := by
        unfold deltasOf
        simp
      rw [histo_all_zero _ ?hz ?hne2, hlen]
      case hz =>
        intro d hd
        unfold deltasOf at hd
        rw [List.map_map, List.mem_map] at hd
        obtain ⟨p, _, hp⟩ := hd
        simp at hp
        omega
      case hne2 =>
        unfold deltasOf
        simp only [ne_eq, List.map_eq_nil_iff]
        exact hne
    rw [hoff, maxPair_single_pos _ _ (List.length_pos.mpr hne)]
    rfl
  · intro p hp
    rw [hdb, selfdb_lookup cm p hp]
    rfl

set_option maxRecDepth 4000 in
unseal Rat.mul Rat.inv Rat.add Rat.sub in
/-- Claim C1, witness: the self-match property on a concrete
two-landmark recording, whose hash map has one entry. -/
theorem c1_self_match_witness :
    score_songs (create_hashes [⟨0, 0⟩, ⟨2, 100⟩] none) (buildDB [[⟨0, 0⟩, ⟨2, 100⟩]]) =
      [(some 0, (0, (create_hashes [⟨0, 0⟩, ⟨2, 100⟩] none).length))] ∧
      ∀ p ∈ create_hashes [⟨0, 0⟩, ⟨2, 100⟩] none,
        (lookupA (buildDB [[⟨0, 0⟩, ⟨2, 100⟩]]) p.1).isSome :=
  c1_self_match [⟨0, 0⟩, ⟨2, 100⟩] (by decide)

set_option maxRecDepth 4000 in
unseal Rat.mul Rat.inv Rat.add Rat.sub in
/-- Claim C5, witness: the bucket equation and the preservation property
at a concrete one-recording corpus and its single hash. -/
theorem c5_index_append_only_witness :
    bucket (buildDB [[⟨0, 0⟩, ⟨2, 100⟩]]) 2101248 =
      (([[⟨0, 0⟩, ⟨2, 100⟩]] : List (List Landmark)).enum.map (fun p =>
        ((create_hashes p.2 (some p.1)).filter (fun e => e.1 == 2101248)).map
          (fun e => e.2))).flatten ∧
      ((0 : ℤ), (some 0 : SongId)) ∈ bucket (buildDB [[⟨0, 0⟩, ⟨2, 100⟩]]) 2101248 :=
  ⟨(c5_index_append_only [[⟨0, 0⟩, ⟨2, 100⟩]] 2101248).1,
    (c5_index_append_only [[⟨0, 0⟩, ⟨2, 100⟩]] 2101248).2 0 [⟨0, 0⟩, ⟨2, 100⟩] 0 (some 0)
      (by decide) (by decide)⟩

theorem pyInt_nonpos (q : ℚ) (h : q ≤ 0) : pyInt q ≤ 0 := by
  unfold pyInt
  have hnum : q.num ≤ 0 := Rat.num_nonpos.mpr h
  have h1 : 0 ≤ (-q.num).tdiv q.den := Int.tdiv_nonneg (by omega) (by positivity)
  have h2 : (-q.num).tdiv q.den = -(q.num.tdiv q.den) := Int.neg_tdiv _ _
  omega

theorem sample_window_size_nonpos (sr : ℤ) (h : sr ≤ 0) : sample_window_size sr ≤ 0 := by
  unfold sample_window_size
  have h0 : pyInt ((1 / 2 : ℚ) * (sr : ℚ)) ≤ 0 := by
    apply pyInt_nonpos
    apply mul_nonpos_of_nonneg_of_nonpos
    · norm_num
    · exact_mod_cast h
  have hm : pyMod (pyInt ((1 / 2 : ℚ) * (sr : ℚ))) 2 =
      (pyInt ((1 / 2 : ℚ) * (sr : ℚ))) % 2 := by
    unfold pyMod
    rw [if_pos (by norm_num)]
  dsimp only
  rw [hm]
  omega

set_option maxRecDepth 4000 in
unseal Rat.mul Rat.inv Rat.add Rat.sub in
/-- Claim C9, counterexample: calling the extractor with sample rate 0
does not produce the spec's designed `InvalidInput` rejection; the code
has no validation at all and fails incidentally with the Python
`ZeroDivisionError` raised by `audio.size % sample_window_size` after
the window size has already been computed. -/
theorem c9_counterexample :
    constellationFraming 4 0 = ExtractResult.error ExtractError.zeroDivision ∧
      ExtractError.zeroDivision ≠ ExtractError.invalidInput :=
  ⟨by decide, by decide⟩

/-- Claim C9 (amended): for every sample buffer, a sample rate ≤ 0 makes
`create_constellation_map` raise an unhandled exception instead of
returning a constellation map: a `ZeroDivisionError` when the computed
window size is 0, a negative-padding `ValueError` when it is negative.
No `InvalidInput` validation exists, so the error is never the spec's
designed rejection. -/
theorem c9_nonpositive_rate (audioLen : ℕ) (sr : ℤ) (h : sr ≤ 0) :
    ∃ e : ExtractError, constellationFraming audioLen sr = ExtractResult.error e ∧
      e ≠ ExtractError.invalidInput := by
  have hw : sample_window_size sr ≤ 0 := sample_window_size_nonpos sr h
  unfold constellationFraming
  dsimp only
  by_cases hz : sample_window_size sr = 0
  · rw [if_pos hz]
    exact ⟨ExtractError.zeroDivision, rfl, by decide⟩
  · rw [if_neg hz]
    have hwneg : sample_window_size sr < 0 := by omega
    have hpm : pyMod (audioLen : ℤ) (sample_window_size sr) ≤ 0 ∧
        sample_window_size sr < pyMod (audioLen : ℤ) (sample_window_size sr) := by
      unfold pyMod
      rw [if_neg (by omega)]
      have h1 : 0 ≤ (-(audioLen : ℤ)) % (-(sample_window_size sr)) :=
        Int.emod_nonneg _ (by omega)
      have h2 : (-(audioLen : ℤ)) % (-(sample_window_size sr)) < -(sample_window_size sr) :=
        Int.emod_lt_of_pos _ (by omega)
      omega
    rw [if_pos (by omega)]
    exact ⟨ExtractError.negativePad, rfl, by decide⟩

set_option maxRecDepth 4000 in
unseal Rat.mul Rat.inv Rat.add Rat.sub in
/-- Claim C9, witness: the amended statement applied to a concrete
buffer length and sample rate. -/
theorem c9_nonpositive_rate_witness :
    ∃ e : ExtractError, constellationFraming 441000 (-44100) = ExtractResult.error e ∧
      e ≠ ExtractError.invalidInput :=
  c9_nonpositive_rate 441000 (-44100) (by decide)

set_option maxRecDepth 4000 in
unseal Rat.mul Rat.inv Rat.add Rat.sub in
/-- Claim C4, counterexample: the STFT call leaves scipy's default
`noverlap = nperseg // 2`, so the hop is half a window, not a whole
window, and a 10-second 44100 Hz input (441000 samples) is framed into
43 STFT windows (window size 22050), not the claimed
`ceil(10 s / 0.5 s) = 20`. -/
theorem c4_counterexample :
    constellationFraming 441000 44100 = ExtractResult.ok 22050 43 ∧
      constellationFraming 441000 44100 ≠ ExtractResult.ok 22050 20 :=
  ⟨by decide, by decide⟩

set_option maxRecDepth 4000 in
unseal Rat.mul Rat.inv Rat.add Rat.sub in
/-- Claim C4 (amended): with scipy's defaults (`noverlap = nperseg // 2`,
zero boundary extension of half a window on each side, `padded=True`)
a 441000-sample input at 44100 Hz is framed into 43 overlapping STFT
windows of 22050 samples, and every window contributes at most
`min(15, number of detected peaks) ≤ 15` landmarks. -/
theorem c4_framing :
    constellationFraming 441000 44100 = ExtractResult.ok 22050 43 ∧
      ∀ (detected : List ℚ) (order : List ℕ) (t : ℤ),
        (windowLandmarks detected order t).length ≤ 15 := by
  constructor
  · decide
  · intro detected order t
    unfold windowLandmarks
    calc ((order.drop (order.length - min 15 detected.length)).filterMap
          (fun i => (detected[i]?).map (fun f => Landmark.mk t f))).length
        ≤ (order.drop (order.length - min 15 detected.length)).length :=
          List.length_filterMap_le _ _
      _ = order.length - (order.length - min 15 detected.length) := List.length_drop _ _
      _ ≤ 15 := by omega

/-- Claim C10: the duplicated core logic of `app.py` computes the same
functions as `song_recognizer.py`: the two `create_hashes` agree on
every input, the two `score_songs` agree on every query and database
(with `song_recognizer`'s module-global `database` passed explicitly),
and the two `create_constellation_map` embeddings (framing and
per-window landmark selection) agree on every input. -/
theorem c10_duplicate_logic :
    (∀ cm sid, App.create_hashes cm sid = create_hashes cm sid) ∧
      (∀ hashes database, App.score_songs hashes database = score_songs hashes database) ∧
      (∀ audioLen sr, App.constellationFraming audioLen sr = constellationFraming audioLen sr) ∧
      (∀ detected order t, App.windowLandmarks detected order t = windowLandmarks detected order t) :=
  ⟨fun _ _ => rfl, fun _ _ => rfl, fun _ _ => rfl, fun _ _ _ => rfl⟩
